import Mathlib

/-!
# ARM atomic primitives (`jni/cutils/atomic-arm.h`)

A shallow embedding of the header's inline functions.

* An `int32_t` is an `Int` in `[-2^31, 2^31)`; register arithmetic wraps through `wrap32`.
* The atomic cell is passed explicitly: every operation takes the cell's current value and
  returns the value it leaves behind.
* Every operation also returns the sequence of barrier invocations and cell accesses it
  performs, in program order.
* The preprocessor configuration is a `Build` value; an undefined macro evaluates to `0`
  inside `#if`, as the C preprocessor prescribes.
* The outcome of an exclusive store is decided by the hardware.  Each pass of a
  `ldrex`/`strex` loop consumes one `Pass` record saying what the hardware does on it.
* Concurrent callers of `android_atomic_add` are a `Machine`: threads interleaved one
  instruction at a time under a schedule, with one exclusive monitor per thread.
* The Thumb-1 mode switch around the CAS instructions changes no value and no access, and
  is left out.
-/

namespace AtomicArm

/-! ## 32-bit two's-complement values -/

/-- Smallest `int32_t`. -/
def INT32_MIN : Int := -2147483648

/-- Largest `int32_t`. -/
def INT32_MAX : Int := 2147483647

/-- Membership in the `int32_t` range. -/
def IsInt32 (x : Int) : Prop := INT32_MIN ≤ x ∧ x ≤ INT32_MAX

instance (x : Int) : Decidable (IsInt32 x) := by
  unfold IsInt32; exact inferInstance

/-- Reduction modulo `2^32` into the signed range: the value a 32-bit register holds. -/
def wrap32 (x : Int) : Int := (x + 2147483648) % 4294967296 - 2147483648

/-- The 32-bit pattern of a value, as an unsigned number. -/
def toBits (x : Int) : Nat := (x % 4294967296).toNat

/-- The signed value of a 32-bit pattern. -/
def ofBits (n : Nat) : Int := wrap32 (n : Int)

/-- The `add` instruction on 32-bit registers. -/
def add32 (a b : Int) : Int := wrap32 (a + b)

/-- The `and` instruction on 32-bit registers. -/
def and32 (a b : Int) : Int := ofBits (toBits a &&& toBits b)

/-- The `orr` instruction on 32-bit registers. -/
def orr32 (a b : Int) : Int := ofBits (toBits a ||| toBits b)

/-! ## Build configuration and barriers -/

/-- The macros the barrier helpers test; `none` is a macro that is not defined. -/
structure Build where
  ANDROID_SMP : Option Int
  __ARM_ARCH__ : Option Int
  deriving DecidableEq

/-- Value of a macro inside an `#if` expression: an undefined identifier is `0`. -/
def cpp_value (m : Option Int) : Int := m.getD 0

/-- What a barrier helper's body compiles to. -/
inductive Fence where
  /-- The instruction `dmb ish` with a memory clobber: full hardware fence. -/
  | dmb_ish
  /-- The instruction `dmb st` with a memory clobber: store fence. -/
  | dmb_st
  /-- An empty `asm volatile` with a memory clobber: compiler barrier only. -/
  | compiler_only
  /-- An empty function body: neither an instruction nor a clobber. -/
  | nothing
  deriving DecidableEq

/-- Function `android_compiler_barrier`: the empty `asm` with a `"memory"` clobber. -/
def android_compiler_barrier : Fence := Fence.compiler_only

/-- Function `android_memory_barrier`:
`#if defined(ANDROID_SMP) && ANDROID_SMP == 1` / `#elif (__ARM_ARCH__ >= 7)` / `#endif`. -/
def android_memory_barrier (b : Build) : Fence :=
  if b.ANDROID_SMP.isSome ∧ cpp_value b.ANDROID_SMP = 1 then Fence.dmb_ish
  else if cpp_value b.__ARM_ARCH__ ≥ 7 then Fence.compiler_only
  else Fence.nothing

/-- Function `android_memory_store_barrier`: `#if ANDROID_SMP == 0` / `#else`. -/
def android_memory_store_barrier (b : Build) : Fence :=
  if cpp_value b.ANDROID_SMP = 0 then android_compiler_barrier
  else Fence.dmb_st

/-! ## Observable actions -/

/-- One step of an operation that is visible outside it. -/
inductive Event where
  /-- A call of `android_memory_barrier`, with what it compiles to in this build. -/
  | memory_barrier (f : Fence)
  /-- A plain volatile read of the cell. -/
  | read (v : Int)
  /-- A plain volatile write of the cell. -/
  | write (v : Int)
  /-- Instruction `ldrex`: exclusive load of the cell. -/
  | ldrex (v : Int)
  /-- Instruction `strex`: exclusive store attempt with the status it reported (`0` = stored). -/
  | strex (v : Int) (status : Int)
  deriving DecidableEq

/-- Recogniser of barrier invocations. -/
def Event.isBarrier : Event → Bool
  | Event.memory_barrier _ => true
  | _ => false

/-- Recogniser of accesses to the cell. -/
def Event.isAccess : Event → Bool
  | Event.memory_barrier _ => false
  | _ => true

/-- Outcome of a call: return value, value left in the cell, actions performed. -/
structure Outcome where
  ret : Int
  cell : Int
  trace : List Event
  deriving DecidableEq

/-- Outcome of a call that returns `void`. -/
structure Effect where
  cell : Int
  trace : List Event
  deriving DecidableEq

/-! ## Ordered loads and stores -/

/-- Function `android_atomic_acquire_load`: `value = *ptr; android_memory_barrier(); return value;` -/
def android_atomic_acquire_load (b : Build) (cell : Int) : Outcome :=
  let value := cell
  { ret := value, cell := cell,
    trace := [Event.read value, Event.memory_barrier (android_memory_barrier b)] }

/-- Function `android_atomic_release_load`: `android_memory_barrier(); return *ptr;` -/
def android_atomic_release_load (b : Build) (cell : Int) : Outcome :=
  { ret := cell, cell := cell,
    trace := [Event.memory_barrier (android_memory_barrier b), Event.read cell] }

/-- Function `android_atomic_acquire_store`: `*ptr = value; android_memory_barrier();` -/
def android_atomic_acquire_store (b : Build) (value : Int) (_cell : Int) : Effect :=
  { cell := value,
    trace := [Event.write value, Event.memory_barrier (android_memory_barrier b)] }

/-- Function `android_atomic_release_store`: `android_memory_barrier(); *ptr = value;` -/
def android_atomic_release_store (b : Build) (value : Int) (_cell : Int) : Effect :=
  { cell := value,
    trace := [Event.memory_barrier (android_memory_barrier b), Event.write value] }

/-! ## Exclusive-access loops -/

/-- What the hardware does on one pass of a `ldrex`/`strex` loop. -/
structure Pass where
  /-- A value another observer wrote to the cell before this pass's `ldrex`, if any. -/
  external : Option Int
  /-- Whether a `strex` executed on this pass reports failure (exclusive monitor lost). -/
  strex_fails : Bool
  deriving DecidableEq

/-- The cell as this pass's `ldrex` finds it. -/
def Pass.observe (p : Pass) (cell : Int) : Int := p.external.getD cell

/-- A pass without interference whose `strex` succeeds. -/
def Pass.quiet : Pass := { external := none, strex_fails := false }

/-- A pass without interference whose `strex` fails spuriously. -/
def Pass.spurious : Pass := { external := none, strex_fails := true }

/-- Registers and cell after one execution of an `asm` block. -/
structure PassResult where
  prev : Int
  status : Int
  cell : Int
  trace : List Event
  deriving DecidableEq

/-- Adds the actions of earlier passes in front of a later result. -/
def prependTrace (evs : List Event) : Option Outcome → Option Outcome
  | none => none
  | some r => some { r with trace := evs ++ r.trace }

/-- The `asm` block of `android_atomic_cas`:
`ldrex prev,[ptr]; mov status,#0; teq prev,old_value; strexeq status,new_value,[ptr]`. -/
def cas_pass (old_value new_value : Int) (cell : Int) (p : Pass) : PassResult :=
  let prev := p.observe cell
  if prev = old_value then
    if p.strex_fails then
      { prev := prev, status := 1, cell := prev,
        trace := [Event.ldrex prev, Event.strex new_value 1] }
    else
      { prev := prev, status := 0, cell := new_value,
        trace := [Event.ldrex prev, Event.strex new_value 0] }
  else
    { prev := prev, status := 0, cell := prev, trace := [Event.ldrex prev] }

/-- Function `android_atomic_cas`: `do { asm } while (status != 0); return prev != old_value;`.
The list describes the hardware on the successive passes; the result is `none` when the
loop is still retrying after the last described pass. -/
def android_atomic_cas (old_value new_value : Int) (cell : Int) : List Pass → Option Outcome
  | [] => none
  | p :: ps =>
    let r := cas_pass old_value new_value cell p
    if r.status ≠ 0 then
      prependTrace r.trace (android_atomic_cas old_value new_value r.cell ps)
    else
      some { ret := if r.prev ≠ old_value then 1 else 0, cell := r.cell, trace := r.trace }

/-- Function `android_atomic_acquire_cas`: the CAS, then `android_memory_barrier()`. -/
def android_atomic_acquire_cas (b : Build) (old_value new_value : Int) (cell : Int)
    (hw : List Pass) : Option Outcome :=
  match android_atomic_cas old_value new_value cell hw with
  | none => none
  | some r =>
    some { ret := r.ret, cell := r.cell,
           trace := r.trace ++ [Event.memory_barrier (android_memory_barrier b)] }

/-- Function `android_atomic_release_cas`: `android_memory_barrier()`, then the CAS. -/
def android_atomic_release_cas (b : Build) (old_value new_value : Int) (cell : Int)
    (hw : List Pass) : Option Outcome :=
  prependTrace [Event.memory_barrier (android_memory_barrier b)]
    (android_atomic_cas old_value new_value cell hw)

/-- The `asm` block shared by `android_atomic_add`, `_and`, `_or`:
`ldrex prev,[ptr]; <op> tmp,prev,operand; strex status,tmp,[ptr]`. -/
def op_pass (op : Int → Int → Int) (operand : Int) (cell : Int) (p : Pass) : PassResult :=
  let prev := p.observe cell
  let tmp := op prev operand
  if p.strex_fails then
    { prev := prev, status := 1, cell := prev,
      trace := [Event.ldrex prev, Event.strex tmp 1] }
  else
    { prev := prev, status := 0, cell := tmp,
      trace := [Event.ldrex prev, Event.strex tmp 0] }

/-- The loop `do { asm } while (status != 0); return prev;` of the fetch-and-op family. -/
def op_loop (op : Int → Int → Int) (operand : Int) (cell : Int) : List Pass → Option Outcome
  | [] => none
  | p :: ps =>
    let r := op_pass op operand cell p
    if r.status ≠ 0 then
      prependTrace r.trace (op_loop op operand r.cell ps)
    else
      some { ret := r.prev, cell := r.cell, trace := r.trace }

/-- Function `android_atomic_add`: `android_memory_barrier()`, then the `ldrex/add/strex` loop. -/
def android_atomic_add (b : Build) (increment : Int) (cell : Int) (hw : List Pass) :
    Option Outcome :=
  prependTrace [Event.memory_barrier (android_memory_barrier b)]
    (op_loop add32 increment cell hw)

/-- Function `android_atomic_inc`: `return android_atomic_add(1, addr);` -/
def android_atomic_inc (b : Build) (cell : Int) (hw : List Pass) : Option Outcome :=
  android_atomic_add b 1 cell hw

/-- Function `android_atomic_dec`: `return android_atomic_add(-1, addr);` -/
def android_atomic_dec (b : Build) (cell : Int) (hw : List Pass) : Option Outcome :=
  android_atomic_add b (-1) cell hw

/-- Function `android_atomic_and`: `android_memory_barrier()`, then the `ldrex/and/strex` loop. -/
def android_atomic_and (b : Build) (value : Int) (cell : Int) (hw : List Pass) :
    Option Outcome :=
  prependTrace [Event.memory_barrier (android_memory_barrier b)]
    (op_loop and32 value cell hw)

/-- Function `android_atomic_or`: `android_memory_barrier()`, then the `ldrex/orr/strex` loop. -/
def android_atomic_or (b : Build) (value : Int) (cell : Int) (hw : List Pass) :
    Option Outcome :=
  prependTrace [Event.memory_barrier (android_memory_barrier b)]
    (op_loop orr32 value cell hw)

/-! ## Helper values for the statements about retry loops -/

/-- The cell after a run of passes none of which stored: only external writes changed it. -/
def cell_after (cell : Int) (fails : List Pass) : Int :=
  fails.foldl (fun c q => q.observe c) cell

/-- The actions of a run of failed fetch-and-op passes starting from `cell`. -/
def retry_trace (op : Int → Int → Int) (operand : Int) : Int → List Pass → List Event
  | _, [] => []
  | cell, q :: qs =>
    Event.ldrex (q.observe cell) :: Event.strex (op (q.observe cell) operand) 1 ::
      retry_trace op operand (q.observe cell) qs

/-- A run of CAS passes each of which observed `old_value` and lost its exclusive store. -/
def store_failures (old_value : Int) : Int → List Pass → Bool
  | _, [] => true
  | cell, q :: qs =>
    decide (q.observe cell = old_value) && q.strex_fails && store_failures old_value old_value qs

/-- The actions of `n` CAS passes that observed `old_value` and lost the exclusive store. -/
def cas_retry_trace (old_value new_value : Int) : Nat → List Event
  | 0 => []
  | n + 1 => Event.ldrex old_value :: Event.strex new_value 1 ::
      cas_retry_trace old_value new_value n

/-! ## Concurrent callers of `android_atomic_add`

Threads are interleaved at instruction granularity.  Accesses to the single cell are
coherent, and the exclusive monitor follows the architecture's rule: `ldrex` sets the
executing thread's monitor, a store to the cell that succeeds clears every monitor on it,
and a `strex` stores only while its thread's monitor is still set.  The hardware may also
drop a monitor for unrelated reasons (a spurious failure). -/

/-- Where a thread stands inside a call of `android_atomic_add`. -/
inductive Pc where
  /-- Before `android_memory_barrier()`. -/
  | at_barrier
  /-- Before `ldrex prev, [ptr]`. -/
  | at_ldrex
  /-- Before `add tmp, prev, increment`. -/
  | at_add (prev : Int)
  /-- Before `strex status, tmp, [ptr]`. -/
  | at_strex (prev tmp : Int)
  deriving DecidableEq

/-- A thread issuing calls of `android_atomic_add` back to back. -/
structure Thread where
  /-- Calls not yet completed, the one in progress included. -/
  calls : Nat
  pc : Pc
  /-- Whether this thread's exclusive monitor on the cell is set. -/
  monitor : Bool
  deriving DecidableEq

/-- The shared cell and the threads operating on it. -/
structure Machine where
  cell : Int
  threads : List Thread
  deriving DecidableEq

/-- One scheduling decision: the thread that executes its next instruction, and whether
the hardware has dropped its monitor by the time it executes a `strex`. -/
structure Sched where
  thread : Nat
  spurious : Bool
  deriving DecidableEq

/-- Clears the exclusive monitor of a thread. -/
def Thread.clear (t : Thread) : Thread := { t with monitor := false }

/-- One instruction of the scheduled thread; a thread with no call left does nothing. -/
def Machine.step (increment : Int) (m : Machine) (s : Sched) : Machine :=
  match m.threads[s.thread]? with
  | none => m
  | some t =>
    if t.calls = 0 then m
    else
      match t.pc with
      | Pc.at_barrier =>
        { m with threads := m.threads.set s.thread { t with pc := Pc.at_ldrex } }
      | Pc.at_ldrex =>
        { m with threads :=
            m.threads.set s.thread { t with pc := Pc.at_add m.cell, monitor := true } }
      | Pc.at_add prev =>
        { m with threads :=
            m.threads.set s.thread { t with pc := Pc.at_strex prev (add32 prev increment) } }
      | Pc.at_strex _ tmp =>
        if t.monitor = true ∧ s.spurious = false then
          { cell := tmp,
            threads := (m.threads.map Thread.clear).set s.thread
              { calls := t.calls - 1, pc := Pc.at_barrier, monitor := false } }
        else
          { m with threads :=
              m.threads.set s.thread { t with pc := Pc.at_ldrex, monitor := false } }

/-- Runs a whole interleaving. -/
def Machine.run (increment : Int) (m : Machine) (sched : List Sched) : Machine :=
  sched.foldl (Machine.step increment) m

/-- The start: cell `0`, `n` threads with `calls` calls each, none begun. -/
def Machine.init (n calls : Nat) : Machine :=
  { cell := 0,
    threads := List.replicate n { calls := calls, pc := Pc.at_barrier, monitor := false } }

/-- Calls not yet completed, over all threads. -/
def Machine.remaining (m : Machine) : Nat := (m.threads.map Thread.calls).sum

/-- Every thread has completed all its calls. -/
def Machine.finished (m : Machine) : Bool := m.threads.all (fun t => t.calls == 0)

/-- What is known of a thread in the middle of a call: its `tmp` is the sum it computed,
and while its monitor is set the value it loaded is still the value of the cell. -/
def Thread.ok (increment cell : Int) (t : Thread) : Prop :=
  match t.pc with
  | Pc.at_barrier => True
  | Pc.at_ldrex => True
  | Pc.at_add prev => t.monitor = true → prev = cell
  | Pc.at_strex prev tmp => tmp = add32 prev increment ∧ (t.monitor = true → prev = cell)

/-- The invariant of the interleaved executions: the cell is an `int32_t`, it is congruent
modulo `2^32` to `increment` times the number of completed calls, and every thread
satisfies `Thread.ok`. -/
def Machine.inv (increment : Int) (total : Nat) (m : Machine) : Prop :=
  IsInt32 m.cell ∧
  (m.cell + increment * (m.remaining : Int) - increment * (total : Int)) % 4294967296 = 0 ∧
  ∀ t ∈ m.threads, t.ok increment m.cell

/-! ## Arithmetic of 32-bit values -/

theorem wrap32_isInt32 (x : Int) : IsInt32 (wrap32 x) := by
  unfold IsInt32 wrap32 INT32_MIN INT32_MAX
  omega

theorem wrap32_of_isInt32 (x : Int) (h : IsInt32 x) : wrap32 x = x := by
  unfold IsInt32 INT32_MIN INT32_MAX at h
  unfold wrap32
  omega

theorem wrap32_congruent (x : Int) : (wrap32 x - x) % 4294967296 = 0 := by
  unfold wrap32
  omega

theorem eq_wrap32_of_congruent (x y : Int) (hx : IsInt32 x)
    (h : (x - y) % 4294967296 = 0) : x = wrap32 y := by
  unfold IsInt32 INT32_MIN INT32_MAX at hx
  unfold wrap32
  omega

theorem toBits_lt (x : Int) : toBits x < 4294967296 := by
  unfold toBits
  omega

theorem toBits_ofBits (n : Nat) (h : n < 4294967296) : toBits (ofBits n) = n := by
  unfold toBits ofBits wrap32
  omega

theorem ofBits_toBits (x : Int) (h : IsInt32 x) : ofBits (toBits x) = x := by
  unfold IsInt32 INT32_MIN INT32_MAX at h
  unfold toBits ofBits wrap32
  omega

theorem and_bits_lt (a b : Int) : toBits a &&& toBits b < 4294967296 :=
  Nat.and_lt_two_pow (toBits a) (n := 32) (toBits_lt b)

theorem or_bits_lt (a b : Int) : toBits a ||| toBits b < 4294967296 :=
  Nat.or_lt_two_pow (n := 32) (toBits_lt a) (toBits_lt b)

theorem toBits_and32 (a b : Int) : toBits (and32 a b) = toBits a &&& toBits b :=
  toBits_ofBits _ (and_bits_lt a b)

theorem toBits_orr32 (a b : Int) : toBits (orr32 a b) = toBits a ||| toBits b :=
  toBits_ofBits _ (or_bits_lt a b)

/-! ## Unfolding the retry loops one pass at a time -/

theorem prependTrace_nil (o : Option Outcome) : prependTrace [] o = o := by
  cases o <;> rfl

theorem prependTrace_append (xs ys : List Event) (o : Option Outcome) :
    prependTrace xs (prependTrace ys o) = prependTrace (xs ++ ys) o := by
  cases o <;> simp [prependTrace]

theorem cas_mismatch (old_value new_value cell : Int) (p : Pass) (ps : List Pass)
    (h : p.observe cell ≠ old_value) :
    android_atomic_cas old_value new_value cell (p :: ps) =
      some ⟨1, p.observe cell, [Event.ldrex (p.observe cell)]⟩ := by
  simp [android_atomic_cas, cas_pass, h]

theorem cas_retry (old_value new_value cell : Int) (p : Pass) (ps : List Pass)
    (h : p.observe cell = old_value) (hf : p.strex_fails = true) :
    android_atomic_cas old_value new_value cell (p :: ps) =
      prependTrace [Event.ldrex old_value, Event.strex new_value 1]
        (android_atomic_cas old_value new_value old_value ps) := by
  simp [android_atomic_cas, cas_pass, h, hf]

theorem cas_commit (old_value new_value cell : Int) (p : Pass) (ps : List Pass)
    (h : p.observe cell = old_value) (hf : p.strex_fails = false) :
    android_atomic_cas old_value new_value cell (p :: ps) =
      some ⟨0, new_value, [Event.ldrex old_value, Event.strex new_value 0]⟩ := by
  simp [android_atomic_cas, cas_pass, h, hf]

theorem op_retry (op : Int → Int → Int) (operand cell : Int) (p : Pass) (ps : List Pass)
    (hf : p.strex_fails = true) :
    op_loop op operand cell (p :: ps) =
      prependTrace [Event.ldrex (p.observe cell), Event.strex (op (p.observe cell) operand) 1]
        (op_loop op operand (p.observe cell) ps) := by
  simp [op_loop, op_pass, hf]

theorem op_commit (op : Int → Int → Int) (operand cell : Int) (p : Pass) (ps : List Pass)
    (hf : p.strex_fails = false) :
    op_loop op operand cell (p :: ps) =
      some ⟨p.observe cell, op (p.observe cell) operand,
        [Event.ldrex (p.observe cell), Event.strex (op (p.observe cell) operand) 0]⟩ := by
  simp [op_loop, op_pass, hf]

theorem observe_spurious (cell : Int) : Pass.spurious.observe cell = cell := rfl

theorem observe_quiet (cell : Int) : Pass.quiet.observe cell = cell := rfl

/-- Spurious failures without interference only delay a CAS that matches. -/
theorem cas_after_spurious (old_value new_value : Int) (k : Nat) (rest : List Pass) :
    android_atomic_cas old_value new_value old_value
        (List.replicate k Pass.spurious ++ Pass.quiet :: rest) =
      some ⟨0, new_value, cas_retry_trace old_value new_value k ++
        [Event.ldrex old_value, Event.strex new_value 0]⟩ := by
  induction k with
  | zero =>
    simpa [cas_retry_trace] using
      cas_commit old_value new_value old_value Pass.quiet rest rfl rfl
  | succ n ih =>
    rw [List.replicate_succ, List.cons_append,
      cas_retry old_value new_value old_value Pass.spurious _ rfl rfl, ih]
    simp [prependTrace, cas_retry_trace]

/-- The fetch-and-op loop over a run of failed passes followed by a successful one. -/
theorem op_loop_commits (op : Int → Int → Int) (operand : Int) (fails : List Pass) :
    ∀ (cell : Int) (p : Pass) (rest : List Pass),
      (∀ q ∈ fails, q.strex_fails = true) → p.strex_fails = false →
      op_loop op operand cell (fails ++ p :: rest) =
        some ⟨p.observe (cell_after cell fails),
          op (p.observe (cell_after cell fails)) operand,
          retry_trace op operand cell fails ++
            [Event.ldrex (p.observe (cell_after cell fails)),
             Event.strex (op (p.observe (cell_after cell fails)) operand) 0]⟩ := by
  induction fails with
  | nil =>
    intro cell p rest _ hp
    simpa [cell_after, retry_trace] using op_commit op operand cell p rest hp
  | cons q qs ih =>
    intro cell p rest hq hp
    have hq1 : q.strex_fails = true := hq q (List.mem_cons_self _ _)
    have hqs : ∀ r ∈ qs, r.strex_fails = true := fun r hr => hq r (List.mem_cons_of_mem _ hr)
    rw [List.cons_append, op_retry op operand cell q _ hq1, ih (q.observe cell) p rest hqs hp]
    simp [prependTrace, cell_after, retry_trace]

/-- The fetch-and-op loop never returns while every described pass fails. -/
theorem op_loop_all_fail (op : Int → Int → Int) (operand : Int) (hw : List Pass) :
    ∀ (cell : Int), (∀ q ∈ hw, q.strex_fails = true) → op_loop op operand cell hw = none := by
  induction hw with
  | nil => intro cell _; rfl
  | cons q qs ih =>
    intro cell hq
    rw [op_retry op operand cell q _ (hq q (List.mem_cons_self _ _)),
      ih _ (fun r hr => hq r (List.mem_cons_of_mem _ hr))]
    rfl

theorem retry_trace_no_barrier (op : Int → Int → Int) (operand : Int) (fails : List Pass) :
    ∀ (cell : Int), ∀ e ∈ retry_trace op operand cell fails, e.isBarrier = false := by
  induction fails with
  | nil => intro cell e he; simp [retry_trace] at he
  | cons q qs ih =>
    intro cell e he
    simp only [retry_trace, List.mem_cons] at he
    rcases he with rfl | rfl | he
    · rfl
    · rfl
    · exact ih _ e he

theorem cas_trace_no_barrier (old_value new_value : Int) (hw : List Pass) :
    ∀ (cell : Int) (r : Outcome), android_atomic_cas old_value new_value cell hw = some r →
      ∀ e ∈ r.trace, e.isBarrier = false := by
  induction hw with
  | nil => intro cell r h; simp [android_atomic_cas] at h
  | cons p ps ih =>
    intro cell r h e he
    by_cases hm : p.observe cell = old_value
    · cases hf : p.strex_fails
      · rw [cas_commit old_value new_value cell p ps hm hf] at h
        cases h
        simp at he
        rcases he with rfl | rfl <;> rfl
      · rw [cas_retry old_value new_value cell p ps hm hf] at h
        cases h2 : android_atomic_cas old_value new_value old_value ps with
        | none => rw [h2] at h; simp [prependTrace] at h
        | some r2 =>
          rw [h2] at h
          simp only [prependTrace, Option.some.injEq] at h
          subst h
          simp only [List.cons_append, List.nil_append, List.mem_cons] at he
          rcases he with rfl | rfl | he
          · rfl
          · rfl
          · exact ih _ r2 h2 e he
    · rw [cas_mismatch old_value new_value cell p ps hm] at h
      cases h
      simp at he
      subst he
      rfl

theorem cell_after_spurious (cell : Int) (k : Nat) :
    cell_after cell (List.replicate k Pass.spurious) = cell := by
  induction k with
  | zero => rfl
  | succ n ih => simpa [cell_after, List.replicate_succ, observe_spurious] using ih

theorem spurious_all_fail (k : Nat) :
    ∀ q ∈ List.replicate k Pass.spurious, q.strex_fails = true := by
  intro q hq
  rw [List.eq_of_mem_replicate hq]
  rfl

/-- A fetch-and-op call without interference: previous value returned, result stored. -/
theorem op_loop_quiet (f : Fence) (op : Int → Int → Int) (operand cell : Int) (k : Nat)
    (rest : List Pass) :
    (prependTrace [Event.memory_barrier f]
        (op_loop op operand cell (List.replicate k Pass.spurious ++ Pass.quiet :: rest))).map
      (fun r => (r.ret, r.cell)) = some (cell, op cell operand) := by
  rw [op_loop_commits op operand _ cell Pass.quiet rest (spurious_all_fail k) rfl]
  simp [prependTrace, cell_after_spurious, observe_quiet]

theorem cell_after_store_failures (old_value : Int) (fails : List Pass) :
    ∀ (cell : Int), store_failures old_value cell fails = true →
      cell_after cell fails = if fails = [] then cell else old_value := by
  induction fails with
  | nil => intro cell _; rfl
  | cons q qs ih =>
    intro cell h
    simp only [store_failures, Bool.and_eq_true, decide_eq_true_eq] at h
    have hrec := ih old_value h.2
    simp only [cell_after, List.foldl_cons] at hrec ⊢
    rw [h.1.1, hrec]
    simp

/-- A run of store failures only delays the CAS: the loop is back at the load. -/
theorem cas_after_failures (old_value new_value : Int) (fails tail : List Pass) :
    ∀ (cell : Int), store_failures old_value cell fails = true →
      android_atomic_cas old_value new_value cell (fails ++ tail) =
        prependTrace (cas_retry_trace old_value new_value fails.length)
          (android_atomic_cas old_value new_value (cell_after cell fails) tail) := by
  induction fails with
  | nil =>
    intro cell _
    simp [cas_retry_trace, cell_after, prependTrace_nil]
  | cons q qs ih =>
    intro cell h
    simp only [store_failures, Bool.and_eq_true, decide_eq_true_eq] at h
    rw [List.cons_append, cas_retry old_value new_value cell q _ h.1.1 h.1.2,
      ih old_value h.2, prependTrace_append]
    simp [cas_retry_trace, cell_after, h.1.1]

/-- The CAS loop returns as soon as the hardware stops failing the exclusive store. -/
theorem cas_terminates (old_value new_value : Int) (hw : List Pass) :
    ∀ (cell : Int), (∃ q ∈ hw, q.strex_fails = false) →
      (android_atomic_cas old_value new_value cell hw).isSome = true := by
  induction hw with
  | nil => intro cell h; simp at h
  | cons p ps ih =>
    intro cell h
    by_cases hm : p.observe cell = old_value
    · cases hf : p.strex_fails
      · rw [cas_commit old_value new_value cell p ps hm hf]; rfl
      · rw [cas_retry old_value new_value cell p ps hm hf]
        have hps : ∃ q ∈ ps, q.strex_fails = false := by
          obtain ⟨q, hq, hqf⟩ := h
          rcases List.mem_cons.mp hq with rfl | hq
          · rw [hf] at hqf; cases hqf
          · exact ⟨q, hq, hqf⟩
        have := ih old_value hps
        cases h2 : android_atomic_cas old_value new_value old_value ps with
        | none => rw [h2] at this; cases this
        | some r => rfl
    · rw [cas_mismatch old_value new_value cell p ps hm]; rfl

theorem fetch_op_commits (b : Build) (op : Int → Int → Int) (operand cell : Int)
    (fails : List Pass) (p : Pass) (rest : List Pass)
    (hfails : ∀ q ∈ fails, q.strex_fails = true) (hp : p.strex_fails = false) :
    prependTrace [Event.memory_barrier (android_memory_barrier b)]
        (op_loop op operand cell (fails ++ p :: rest)) =
      some ⟨p.observe (cell_after cell fails),
        op (p.observe (cell_after cell fails)) operand,
        Event.memory_barrier (android_memory_barrier b) ::
          (retry_trace op operand cell fails ++
            [Event.ldrex (p.observe (cell_after cell fails)),
             Event.strex (op (p.observe (cell_after cell fails)) operand) 0])⟩ := by
  rw [op_loop_commits op operand fails cell p rest hfails hp]
  rfl

theorem fetch_op_all_fail (b : Build) (op : Int → Int → Int) (operand cell : Int)
    (hw : List Pass) (h : ∀ q ∈ hw, q.strex_fails = true) :
    prependTrace [Event.memory_barrier (android_memory_barrier b)]
        (op_loop op operand cell hw) = none := by
  rw [op_loop_all_fail op operand hw cell h]
  rfl

theorem op_pass_fail (op : Int → Int → Int) (operand cell : Int) (p : Pass)
    (hf : p.strex_fails = true) :
    op_pass op operand cell p =
      ⟨p.observe cell, 1, p.observe cell,
        [Event.ldrex (p.observe cell), Event.strex (op (p.observe cell) operand) 1]⟩ := by
  simp [op_pass, hf]

/-- What `android_memory_barrier` compiles to, by build configuration. -/
theorem android_memory_barrier_cases (b : Build) :
    (b.ANDROID_SMP = some 1 → android_memory_barrier b = Fence.dmb_ish) ∧
    (b.ANDROID_SMP ≠ some 1 → cpp_value b.__ARM_ARCH__ ≥ 7 →
      android_memory_barrier b = Fence.compiler_only) ∧
    (b.ANDROID_SMP ≠ some 1 → cpp_value b.__ARM_ARCH__ < 7 →
      android_memory_barrier b = Fence.nothing) := by
  obtain ⟨smp, arch⟩ := b
  refine ⟨?_, ?_, ?_⟩
  · intro h
    simp only at h
    subst h
    simp [android_memory_barrier, cpp_value]
  · intro h ha
    have hs : ¬ (smp.isSome = true ∧ cpp_value smp = 1) := by
      rintro ⟨h1, h2⟩
      cases smp with
      | none => cases h1
      | some v => exact h (by simp only [cpp_value, Option.getD_some] at h2; rw [h2])
    simp only [android_memory_barrier, hs, if_false, ha, if_true]
  · intro h ha
    have hs : ¬ (smp.isSome = true ∧ cpp_value smp = 1) := by
      rintro ⟨h1, h2⟩
      cases smp with
      | none => cases h1
      | some v => exact h (by simp only [cpp_value, Option.getD_some] at h2; rw [h2])
    have ha2 : ¬ (cpp_value arch ≥ 7) := not_le.mpr ha
    simp only [android_memory_barrier, hs, if_false, ha2]

/-! ## The contracts of the primitives -/

/-- C1: with no interference (the exclusive store may still fail spuriously `k` times),
`android_atomic_cas(old, new, &cell)` returns 0 and leaves `cell == new` when the cell held
`old`; otherwise it returns a nonzero value and leaves the cell as it was. -/
theorem android_atomic_cas_contract (old_value new_value initial : Int) (k : Nat)
    (rest : List Pass) :
    (initial = old_value →
      (android_atomic_cas old_value new_value initial
        (List.replicate k Pass.spurious ++ Pass.quiet :: rest)).map
          (fun r => (r.ret, r.cell)) = some (0, new_value)) ∧
    (initial ≠ old_value →
      ∃ r, android_atomic_cas old_value new_value initial
          (List.replicate k Pass.spurious ++ Pass.quiet :: rest) = some r ∧
        r.ret ≠ 0 ∧ r.cell = initial) := by
  constructor
  · intro h
    subst h
    rw [cas_after_spurious]
    rfl
  · intro h
    refine ⟨⟨1, initial, [Event.ldrex initial]⟩, ?_, one_ne_zero, rfl⟩
    cases k with
    | zero => exact cas_mismatch old_value new_value initial Pass.quiet rest h
    | succ n =>
      rw [List.replicate_succ, List.cons_append]
      exact cas_mismatch old_value new_value initial Pass.spurious _ h

/-- The two examples of the CAS contract: `cell = 5; cas(5, 7)` and `cell = 9; cas(5, 7)`. -/
theorem android_atomic_cas_contract_witness :
    (android_atomic_cas 5 7 5 (List.replicate 2 Pass.spurious ++ Pass.quiet :: [])).map
        (fun r => (r.ret, r.cell)) = some (0, 7) ∧
    ∃ r, android_atomic_cas 5 7 9 (List.replicate 2 Pass.spurious ++ Pass.quiet :: []) = some r ∧
      r.ret ≠ 0 ∧ r.cell = 9 :=
  ⟨(android_atomic_cas_contract 5 7 5 2 []).1 rfl,
   (android_atomic_cas_contract 5 7 9 2 []).2 (by decide)⟩

/-- C2: with no interference, `android_atomic_add(delta, &cell)` always returns (it has no
failure path), returns the initial value, and leaves the cell holding `initial + delta`
reduced modulo `2^32` into the signed 32-bit range. -/
theorem android_atomic_add_contract (b : Build) (delta initial : Int) (k : Nat)
    (rest : List Pass) :
    (android_atomic_add b delta initial
        (List.replicate k Pass.spurious ++ Pass.quiet :: rest)).map
      (fun r => (r.ret, r.cell)) = some (initial, wrap32 (initial + delta)) ∧
    IsInt32 (wrap32 (initial + delta)) ∧
    (wrap32 (initial + delta) - (initial + delta)) % 4294967296 = 0 ∧
    (IsInt32 (initial + delta) → wrap32 (initial + delta) = initial + delta) :=
  ⟨op_loop_quiet _ add32 delta initial k rest, wrap32_isInt32 _, wrap32_congruent _,
   wrap32_of_isInt32 _⟩

/-- The examples of fetch-and-add: `cell = 10; add(3)` leaves 13, and adding 1 to
`INT32_MAX` leaves `INT32_MIN`. -/
theorem android_atomic_add_contract_witness :
    (android_atomic_add ⟨some 1, some 7⟩ 3 10
        (List.replicate 1 Pass.spurious ++ Pass.quiet :: [])).map
      (fun r => (r.ret, r.cell)) = some (10, 13) ∧
    (android_atomic_add ⟨some 1, some 7⟩ 1 INT32_MAX
        (List.replicate 0 Pass.spurious ++ Pass.quiet :: [])).map
      (fun r => (r.ret, r.cell)) = some (INT32_MAX, INT32_MIN) :=
  ⟨((android_atomic_add_contract ⟨some 1, some 7⟩ 3 10 1 []).1).trans
      (by rw [(android_atomic_add_contract ⟨some 1, some 7⟩ 3 10 1 []).2.2.2 (by decide)]; rfl),
   ((android_atomic_add_contract ⟨some 1, some 7⟩ 1 INT32_MAX 0 []).1).trans (by decide)⟩

/-- C3: with no interference, `android_atomic_and(mask, &cell)` returns the prior value and
leaves `prior & mask`, `android_atomic_or(mask, &cell)` returns the prior value and leaves
`prior | mask`, both bitwise on the 32-bit patterns and both within the `int32_t` range. -/
theorem android_atomic_and_or_contract (b : Build) (mask prior : Int) (k : Nat)
    (rest : List Pass) :
    (android_atomic_and b mask prior
        (List.replicate k Pass.spurious ++ Pass.quiet :: rest)).map
      (fun r => (r.ret, r.cell)) = some (prior, and32 prior mask) ∧
    (android_atomic_or b mask prior
        (List.replicate k Pass.spurious ++ Pass.quiet :: rest)).map
      (fun r => (r.ret, r.cell)) = some (prior, orr32 prior mask) ∧
    toBits (and32 prior mask) = toBits prior &&& toBits mask ∧
    toBits (orr32 prior mask) = toBits prior ||| toBits mask ∧
    (∀ i, (toBits (and32 prior mask)).testBit i =
      ((toBits prior).testBit i && (toBits mask).testBit i)) ∧
    (∀ i, (toBits (orr32 prior mask)).testBit i =
      ((toBits prior).testBit i || (toBits mask).testBit i)) ∧
    IsInt32 (and32 prior mask) ∧ IsInt32 (orr32 prior mask) := by
  refine ⟨op_loop_quiet _ and32 mask prior k rest, op_loop_quiet _ orr32 mask prior k rest,
    toBits_and32 prior mask, toBits_orr32 prior mask, ?_, ?_, wrap32_isInt32 _,
    wrap32_isInt32 _⟩
  · intro i
    rw [toBits_and32, Nat.testBit_and]
  · intro i
    rw [toBits_orr32, Nat.testBit_or]

/-- C4: `android_atomic_inc(&cell)` is `android_atomic_add(1, &cell)` and
`android_atomic_dec(&cell)` is `android_atomic_add(-1, &cell)`: same return value, same
resulting cell, same barrier and access sequence, for every initial value and every
behaviour of the hardware; at the ends of the range they wrap around. -/
theorem android_atomic_inc_dec_refine (b : Build) (cell : Int) (hw : List Pass) :
    android_atomic_inc b cell hw = android_atomic_add b 1 cell hw ∧
    android_atomic_dec b cell hw = android_atomic_add b (-1) cell hw ∧
    (android_atomic_inc b INT32_MAX [Pass.quiet]).map (fun r => (r.ret, r.cell)) =
      some (INT32_MAX, INT32_MIN) ∧
    (android_atomic_add b 1 INT32_MAX [Pass.quiet]).map (fun r => (r.ret, r.cell)) =
      some (INT32_MAX, INT32_MIN) ∧
    (android_atomic_dec b INT32_MIN [Pass.quiet]).map (fun r => (r.ret, r.cell)) =
      some (INT32_MIN, INT32_MAX) ∧
    (android_atomic_add b (-1) INT32_MIN [Pass.quiet]).map (fun r => (r.ret, r.cell)) =
      some (INT32_MIN, INT32_MAX) :=
  ⟨rfl, rfl, op_loop_quiet _ add32 1 INT32_MAX 0 [], op_loop_quiet _ add32 1 INT32_MAX 0 [],
   op_loop_quiet _ add32 (-1) INT32_MIN 0 [], op_loop_quiet _ add32 (-1) INT32_MIN 0 []⟩

/-- C5: `android_atomic_acquire_cas` and `android_atomic_release_cas` return what
`android_atomic_cas` returns and leave the cell as it does, whatever the outcome; the
acquire variant adds one call of `android_memory_barrier` after the CAS actions, the
release variant one before them, and the plain CAS calls no barrier. -/
theorem android_atomic_cas_variants (b : Build) (old_value new_value cell : Int)
    (hw : List Pass) :
    android_atomic_acquire_cas b old_value new_value cell hw =
      (android_atomic_cas old_value new_value cell hw).map (fun r =>
        { r with trace := r.trace ++ [Event.memory_barrier (android_memory_barrier b)] }) ∧
    android_atomic_release_cas b old_value new_value cell hw =
      (android_atomic_cas old_value new_value cell hw).map (fun r =>
        { r with trace := Event.memory_barrier (android_memory_barrier b) :: r.trace }) ∧
    (∀ r, android_atomic_cas old_value new_value cell hw = some r →
      r.trace.countP Event.isBarrier = 0) ∧
    (∀ r, android_atomic_acquire_cas b old_value new_value cell hw = some r →
      r.trace.countP Event.isBarrier = 1) ∧
    (∀ r, android_atomic_release_cas b old_value new_value cell hw = some r →
      r.trace.countP Event.isBarrier = 1) := by
  have h0 : ∀ r, android_atomic_cas old_value new_value cell hw = some r →
      r.trace.countP Event.isBarrier = 0 := by
    intro r hr
    rw [List.countP_eq_zero]
    intro e he
    simp [cas_trace_no_barrier old_value new_value hw cell r hr e he]
  refine ⟨?_, ?_, h0, ?_, ?_⟩
  · unfold android_atomic_acquire_cas
    cases android_atomic_cas old_value new_value cell hw <;> rfl
  · unfold android_atomic_release_cas
    cases android_atomic_cas old_value new_value cell hw <;> rfl
  · intro r hr
    unfold android_atomic_acquire_cas at hr
    cases h : android_atomic_cas old_value new_value cell hw with
    | none => rw [h] at hr; cases hr
    | some r0 =>
      rw [h] at hr
      cases hr
      simp [List.countP_append, h0 r0 h, Event.isBarrier]
  · intro r hr
    unfold android_atomic_release_cas at hr
    cases h : android_atomic_cas old_value new_value cell hw with
    | none => rw [h] at hr; cases hr
    | some r0 =>
      rw [h] at hr
      cases hr
      simp [List.countP_cons, h0 r0 h, Event.isBarrier]

/-- The CAS variants on a successful and on a failed comparison. -/
theorem android_atomic_cas_variants_witness :
    (android_atomic_cas 5 7 5 [Pass.quiet]).map (fun r => r.trace.countP Event.isBarrier) =
      some 0 ∧
    (android_atomic_acquire_cas ⟨some 1, some 7⟩ 5 7 9 [Pass.quiet]).map
      (fun r => r.trace.countP Event.isBarrier) = some 1 ∧
    (android_atomic_release_cas ⟨some 1, some 7⟩ 5 7 5 [Pass.quiet]).map
      (fun r => r.trace.countP Event.isBarrier) = some 1 :=
  ⟨congrArg some ((android_atomic_cas_variants ⟨some 1, some 7⟩ 5 7 5 [Pass.quiet]).2.2.1
      ⟨0, 7, [Event.ldrex 5, Event.strex 7 0]⟩ (by decide)),
   congrArg some ((android_atomic_cas_variants ⟨some 1, some 7⟩ 5 7 9 [Pass.quiet]).2.2.2.1
      ⟨1, 9, [Event.ldrex 9, Event.memory_barrier Fence.dmb_ish]⟩ (by decide)),
   congrArg some ((android_atomic_cas_variants ⟨some 1, some 7⟩ 5 7 5 [Pass.quiet]).2.2.2.2
      ⟨0, 7, [Event.memory_barrier Fence.dmb_ish, Event.ldrex 5, Event.strex 7 0]⟩
      (by decide))⟩

/-- C6: each ordered load or store is one access to the cell and one call of
`android_memory_barrier`, in the order of the source: acquire-load reads then fences and
returns the value read, release-store fences then writes, release-load fences then reads,
acquire-store writes then fences; a load right after a store of `v` returns `v`. -/
theorem android_atomic_ordered_access (b : Build) (v cell : Int) :
    android_atomic_acquire_load b cell =
      ⟨cell, cell, [Event.read cell, Event.memory_barrier (android_memory_barrier b)]⟩ ∧
    android_atomic_release_load b cell =
      ⟨cell, cell, [Event.memory_barrier (android_memory_barrier b), Event.read cell]⟩ ∧
    android_atomic_acquire_store b v cell =
      ⟨v, [Event.write v, Event.memory_barrier (android_memory_barrier b)]⟩ ∧
    android_atomic_release_store b v cell =
      ⟨v, [Event.memory_barrier (android_memory_barrier b), Event.write v]⟩ ∧
    (android_atomic_acquire_load b (android_atomic_release_store b v cell).cell).ret = v ∧
    (android_atomic_acquire_load b (android_atomic_acquire_store b v cell).cell).ret = v ∧
    (android_atomic_release_load b (android_atomic_release_store b v cell).cell).ret = v ∧
    (android_atomic_release_load b (android_atomic_acquire_store b v cell).cell).ret = v ∧
    (android_atomic_acquire_load b cell).trace.countP Event.isAccess = 1 ∧
    (android_atomic_acquire_load b cell).trace.countP Event.isBarrier = 1 ∧
    (android_atomic_release_load b cell).trace.countP Event.isAccess = 1 ∧
    (android_atomic_release_load b cell).trace.countP Event.isBarrier = 1 ∧
    (android_atomic_acquire_store b v cell).trace.countP Event.isAccess = 1 ∧
    (android_atomic_acquire_store b v cell).trace.countP Event.isBarrier = 1 ∧
    (android_atomic_release_store b v cell).trace.countP Event.isAccess = 1 ∧
    (android_atomic_release_store b v cell).trace.countP Event.isBarrier = 1 :=
  ⟨rfl, rfl, rfl, rfl, rfl, rfl, rfl, rfl, rfl, rfl, rfl, rfl, rfl, rfl, rfl, rfl⟩

/-- C7, the code at a uniprocessor build for an architecture below 7 (and at a build that
defines neither macro): the body of `android_memory_barrier` is empty, with neither a fence
nor the compiler-only clobber, while `android_memory_store_barrier` and the same function
at architecture 7 do emit the compiler barrier; with `ANDROID_SMP == 1` it is `dmb ish`. -/
theorem android_memory_barrier_uniprocessor_below_v7 :
    android_memory_barrier ⟨some 0, some 6⟩ = Fence.nothing ∧
    android_memory_barrier ⟨none, none⟩ = Fence.nothing ∧
    android_memory_store_barrier ⟨some 0, some 6⟩ = Fence.compiler_only ∧
    android_memory_store_barrier ⟨none, none⟩ = Fence.compiler_only ∧
    android_memory_barrier ⟨some 0, some 7⟩ = Fence.compiler_only ∧
    android_memory_barrier ⟨some 1, some 6⟩ = Fence.dmb_ish := by
  decide

/-- C9: one pass of `android_atomic_cas` at the head of the loop.  If the value observed
differs from `old_value`, no store is attempted, the status is 0, the loop exits on that
pass and the CAS returns nonzero.  If it equals `old_value` and the exclusive store fails,
the cell is not written and the loop retries from the load.  If it equals `old_value` and
the store succeeds, the cell becomes `new_value` and the CAS returns 0.  After any finite
run of store failures the loop returns on the first pass that is not one, and the return
value reports the comparison of that final pass only; the loop returns whenever some pass
does not fail its store. -/
theorem android_atomic_cas_passes (old_value new_value cell : Int) (p : Pass)
    (ps fails : List Pass) :
    (p.observe cell ≠ old_value →
      cas_pass old_value new_value cell p =
        ⟨p.observe cell, 0, p.observe cell, [Event.ldrex (p.observe cell)]⟩ ∧
      android_atomic_cas old_value new_value cell (p :: ps) =
        some ⟨1, p.observe cell, [Event.ldrex (p.observe cell)]⟩) ∧
    (p.observe cell = old_value → p.strex_fails = true →
      cas_pass old_value new_value cell p =
        ⟨old_value, 1, old_value, [Event.ldrex old_value, Event.strex new_value 1]⟩ ∧
      android_atomic_cas old_value new_value cell (p :: ps) =
        prependTrace [Event.ldrex old_value, Event.strex new_value 1]
          (android_atomic_cas old_value new_value old_value ps)) ∧
    (p.observe cell = old_value → p.strex_fails = false →
      cas_pass old_value new_value cell p =
        ⟨old_value, 0, new_value, [Event.ldrex old_value, Event.strex new_value 0]⟩ ∧
      android_atomic_cas old_value new_value cell (p :: ps) =
        some ⟨0, new_value, [Event.ldrex old_value, Event.strex new_value 0]⟩) ∧
    (store_failures old_value cell fails = true →
      p.observe (cell_after cell fails) ≠ old_value →
      android_atomic_cas old_value new_value cell (fails ++ p :: ps) =
        some ⟨1, p.observe (cell_after cell fails),
          cas_retry_trace old_value new_value fails.length ++
            [Event.ldrex (p.observe (cell_after cell fails))]⟩) ∧
    (store_failures old_value cell fails = true →
      p.observe (cell_after cell fails) = old_value → p.strex_fails = false →
      android_atomic_cas old_value new_value cell (fails ++ p :: ps) =
        some ⟨0, new_value,
          cas_retry_trace old_value new_value fails.length ++
            [Event.ldrex old_value, Event.strex new_value 0]⟩) ∧
    ((∃ q ∈ ps, q.strex_fails = false) →
      (android_atomic_cas old_value new_value cell ps).isSome = true) := by
  refine ⟨?_, ?_, ?_, ?_, ?_, cas_terminates old_value new_value ps cell⟩
  · intro h
    exact ⟨by simp [cas_pass, h], cas_mismatch old_value new_value cell p ps h⟩
  · intro h hf
    exact ⟨by simp [cas_pass, h, hf], cas_retry old_value new_value cell p ps h hf⟩
  · intro h hf
    exact ⟨by simp [cas_pass, h, hf], cas_commit old_value new_value cell p ps h hf⟩
  · intro hfails h
    rw [cas_after_failures old_value new_value fails (p :: ps) cell hfails,
      cas_mismatch old_value new_value _ p ps h]
    rfl
  · intro hfails h hf
    rw [cas_after_failures old_value new_value fails (p :: ps) cell hfails,
      cas_commit old_value new_value _ p ps h hf]
    rfl

/-- A CAS that loses its store twice, then finds the cell changed by another observer: it
returns nonzero although the first two passes compared equal; and one that commits. -/
theorem android_atomic_cas_passes_witness :
    android_atomic_cas 5 7 5 ([⟨none, true⟩, ⟨none, true⟩] ++ ⟨some 9, false⟩ :: []) =
      some ⟨1, 9, [Event.ldrex 5, Event.strex 7 1, Event.ldrex 5, Event.strex 7 1,
        Event.ldrex 9]⟩ ∧
    android_atomic_cas 5 7 4 ([⟨some 5, true⟩] ++ ⟨none, false⟩ :: []) =
      some ⟨0, 7, [Event.ldrex 5, Event.strex 7 1, Event.ldrex 5, Event.strex 7 0]⟩ ∧
    android_atomic_cas 5 7 9 (⟨none, true⟩ :: []) = some ⟨1, 9, [Event.ldrex 9]⟩ ∧
    android_atomic_cas 5 7 5 (⟨none, true⟩ :: [⟨none, false⟩]) =
      prependTrace [Event.ldrex 5, Event.strex 7 1] (android_atomic_cas 5 7 5 [⟨none, false⟩]) ∧
    android_atomic_cas 5 7 5 (⟨none, false⟩ :: []) =
      some ⟨0, 7, [Event.ldrex 5, Event.strex 7 0]⟩ ∧
    (android_atomic_cas 5 7 5 [⟨none, true⟩, ⟨none, false⟩]).isSome = true :=
  ⟨(android_atomic_cas_passes 5 7 5 ⟨some 9, false⟩ [] [⟨none, true⟩, ⟨none, true⟩]).2.2.2.1
      (by decide) (by decide),
   (android_atomic_cas_passes 5 7 4 ⟨none, false⟩ [] [⟨some 5, true⟩]).2.2.2.2.1
      (by decide) (by decide) rfl,
   ((android_atomic_cas_passes 5 7 9 ⟨none, true⟩ [] []).1 (by decide)).2,
   ((android_atomic_cas_passes 5 7 5 ⟨none, true⟩ [⟨none, false⟩] []).2.1 (by decide) rfl).2,
   ((android_atomic_cas_passes 5 7 5 ⟨none, false⟩ [] []).2.2.1 (by decide) rfl).2,
   (android_atomic_cas_passes 5 7 5 ⟨none, false⟩ [⟨none, true⟩, ⟨none, false⟩] []).2.2.2.2.2
      ⟨⟨none, false⟩, by decide, rfl⟩⟩

/-- C10: `android_atomic_add`, `android_atomic_and` and `android_atomic_or` over any run of
passes whose exclusive store fails, followed by a pass whose store succeeds.  The barrier
is called once, before the first load, and the retried passes call none; a failed pass
leaves the cell unwritten and the loop retries; the call returns on the first successful
store, returns the value loaded on that pass and stores `op` of that value and the
operand.  While every pass fails, the call does not return. -/
theorem android_atomic_fetch_op_passes (b : Build) (operand cell : Int) (fails : List Pass)
    (p : Pass) (rest : List Pass) :
    ((∀ q ∈ fails, q.strex_fails = true) → p.strex_fails = false →
      android_atomic_add b operand cell (fails ++ p :: rest) =
        some ⟨p.observe (cell_after cell fails),
          add32 (p.observe (cell_after cell fails)) operand,
          Event.memory_barrier (android_memory_barrier b) ::
            (retry_trace add32 operand cell fails ++
              [Event.ldrex (p.observe (cell_after cell fails)),
               Event.strex (add32 (p.observe (cell_after cell fails)) operand) 0])⟩ ∧
      android_atomic_and b operand cell (fails ++ p :: rest) =
        some ⟨p.observe (cell_after cell fails),
          and32 (p.observe (cell_after cell fails)) operand,
          Event.memory_barrier (android_memory_barrier b) ::
            (retry_trace and32 operand cell fails ++
              [Event.ldrex (p.observe (cell_after cell fails)),
               Event.strex (and32 (p.observe (cell_after cell fails)) operand) 0])⟩ ∧
      android_atomic_or b operand cell (fails ++ p :: rest) =
        some ⟨p.observe (cell_after cell fails),
          orr32 (p.observe (cell_after cell fails)) operand,
          Event.memory_barrier (android_memory_barrier b) ::
            (retry_trace orr32 operand cell fails ++
              [Event.ldrex (p.observe (cell_after cell fails)),
               Event.strex (orr32 (p.observe (cell_after cell fails)) operand) 0])⟩) ∧
    (∀ (op : Int → Int → Int), ∀ e ∈ retry_trace op operand cell fails ++
        [Event.ldrex (p.observe (cell_after cell fails)),
         Event.strex (op (p.observe (cell_after cell fails)) operand) 0],
      e.isBarrier = false) ∧
    (∀ (op : Int → Int → Int), p.strex_fails = true →
      op_pass op operand cell p =
        ⟨p.observe cell, 1, p.observe cell,
          [Event.ldrex (p.observe cell), Event.strex (op (p.observe cell) operand) 1]⟩ ∧
      op_loop op operand cell (p :: rest) =
        prependTrace
          [Event.ldrex (p.observe cell), Event.strex (op (p.observe cell) operand) 1]
          (op_loop op operand (p.observe cell) rest)) ∧
    ((∀ q ∈ fails, q.strex_fails = true) →
      android_atomic_add b operand cell fails = none ∧
      android_atomic_and b operand cell fails = none ∧
      android_atomic_or b operand cell fails = none) := by
  refine ⟨?_, ?_, ?_, ?_⟩
  · intro hfails hp
    exact ⟨fetch_op_commits b add32 operand cell fails p rest hfails hp,
      fetch_op_commits b and32 operand cell fails p rest hfails hp,
      fetch_op_commits b orr32 operand cell fails p rest hfails hp⟩
  · intro op e he
    rcases List.mem_append.mp he with he | he
    · exact retry_trace_no_barrier op operand fails cell e he
    · simp only [List.mem_cons, List.mem_singleton, List.not_mem_nil, or_false] at he
      rcases he with rfl | rfl <;> rfl
  · intro op hf
    exact ⟨op_pass_fail op operand cell p hf, op_retry op operand cell p rest hf⟩
  · intro hfails
    exact ⟨fetch_op_all_fail b add32 operand cell fails hfails,
      fetch_op_all_fail b and32 operand cell fails hfails,
      fetch_op_all_fail b orr32 operand cell fails hfails⟩

/-- A fetch-and-add whose first pass loads 10 and loses its store, after which another
observer writes 20: the call returns 20, the value of the committing pass, and stores 23,
with a single barrier in front. -/
theorem android_atomic_fetch_op_passes_witness :
    android_atomic_add ⟨some 1, some 7⟩ 3 10 ([⟨none, true⟩] ++ ⟨some 20, false⟩ :: []) =
      some ⟨20, 23, [Event.memory_barrier Fence.dmb_ish, Event.ldrex 10, Event.strex 13 1,
        Event.ldrex 20, Event.strex 23 0]⟩ ∧
    android_atomic_or ⟨some 1, some 7⟩ 3 10 [⟨none, true⟩] = none :=
  ⟨(((android_atomic_fetch_op_passes ⟨some 1, some 7⟩ 3 10 [⟨none, true⟩] ⟨some 20, false⟩
      []).1 (by decide) rfl).1).trans (by decide),
   ((android_atomic_fetch_op_passes ⟨some 1, some 7⟩ 3 10 [⟨none, true⟩] ⟨some 20, false⟩
      []).2.2.2 (by decide)).2.2⟩

/-! ## Interleaved callers of `android_atomic_add` -/

theorem sum_calls_set (l : List Thread) :
    ∀ (i : Nat) (t u : Thread), l[i]? = some t →
      ((l.set i u).map Thread.calls).sum + t.calls = (l.map Thread.calls).sum + u.calls := by
  induction l with
  | nil => intro i t u h; simp at h
  | cons a as ih =>
    intro i t u h
    cases i with
    | zero =>
      simp only [List.getElem?_cons_zero, Option.some.injEq] at h
      subst h
      simp only [List.set_cons_zero, List.map_cons, List.sum_cons]
      omega
    | succ j =>
      simp only [List.getElem?_cons_succ] at h
      have := ih j t u h
      simp only [List.set_cons_succ, List.map_cons, List.sum_cons]
      omega

theorem sum_calls_clear (l : List Thread) :
    ((l.map Thread.clear).map Thread.calls).sum = (l.map Thread.calls).sum := by
  induction l with
  | nil => rfl
  | cons a as ih => simp only [List.map_cons, List.sum_cons, ih]; rfl

theorem ok_clear (increment cell cell2 : Int) (t : Thread) (h : t.ok increment cell) :
    t.clear.ok increment cell2 := by
  unfold Thread.ok at h ⊢
  unfold Thread.clear
  cases hpc : t.pc with
  | at_barrier => simp
  | at_ldrex => simp
  | at_add prev => simp
  | at_strex prev tmp =>
    rw [hpc] at h
    simpa using h.1

theorem ok_of_mem_set (increment cell : Int) (l : List Thread) (i : Nat) (u : Thread)
    (hl : ∀ t ∈ l, t.ok increment cell) (hu : u.ok increment cell) :
    ∀ t ∈ l.set i u, t.ok increment cell := by
  intro t ht
  rcases List.mem_or_eq_of_mem_set ht with h | h
  · exact hl t h
  · rw [h]; exact hu

theorem congruent_after_commit (cell increment : Int) (rem rem2 total : Nat) (c : Nat)
    (hc : c ≠ 0) (hsum : rem2 + c = rem + (c - 1))
    (h : (cell + increment * (rem : Int) - increment * (total : Int)) % 4294967296 = 0) :
    (add32 cell increment + increment * (rem2 : Int) - increment * (total : Int))
      % 4294967296 = 0 := by
  have hr : rem = rem2 + 1 := by omega
  subst hr
  have e : increment * ((rem2 + 1 : Nat) : Int) = increment * (rem2 : Int) + increment := by
    push_cast
    ring
  rw [e] at h
  generalize increment * (rem2 : Int) = x at h ⊢
  generalize increment * (total : Int) = y at h ⊢
  unfold add32 wrap32
  omega

theorem remaining_set (m : Machine) (i : Nat) (t u : Thread) (c : Int)
    (hget : m.threads[i]? = some t) (hc : u.calls = t.calls) :
    Machine.remaining { cell := c, threads := m.threads.set i u } = m.remaining := by
  have e := sum_calls_set m.threads i t u hget
  unfold Machine.remaining
  simp only
  omega

/-- One instruction of any thread preserves the invariant. -/
theorem step_inv (increment : Int) (total : Nat) (m : Machine) (s : Sched)
    (h : m.inv increment total) : (m.step increment s).inv increment total := by
  obtain ⟨hrange, hsum, hok⟩ := h
  unfold Machine.step
  cases hget : m.threads[s.thread]? with
  | none => exact ⟨hrange, hsum, hok⟩
  | some t =>
    simp only
    by_cases hz : t.calls = 0
    · simp only [hz, if_true]
      exact ⟨hrange, hsum, hok⟩
    · simp only [hz, if_false]
      have htok : t.ok increment m.cell := hok t (List.getElem?_mem hget)
      cases hpc : t.pc with
      | at_barrier =>
        simp only
        refine ⟨hrange, ?_, ok_of_mem_set increment m.cell _ _ _ hok (by simp [Thread.ok])⟩
        rw [remaining_set m s.thread t { t with pc := Pc.at_ldrex } m.cell hget rfl]
        exact hsum
      | at_ldrex =>
        simp only
        refine ⟨hrange, ?_, ok_of_mem_set increment m.cell _ _ _ hok (by simp [Thread.ok])⟩
        rw [remaining_set m s.thread t { t with pc := Pc.at_add m.cell, monitor := true }
          m.cell hget rfl]
        exact hsum
      | at_add prev =>
        simp only
        have hnew : Thread.ok increment m.cell
            { t with pc := Pc.at_strex prev (add32 prev increment) } := by
          unfold Thread.ok at htok ⊢
          rw [hpc] at htok
          exact ⟨rfl, htok⟩
        refine ⟨hrange, ?_, ok_of_mem_set increment m.cell _ _ _ hok hnew⟩
        rw [remaining_set m s.thread t { t with pc := Pc.at_strex prev (add32 prev increment) }
          m.cell hget rfl]
        exact hsum
      | at_strex prev tmp =>
        simp only
        unfold Thread.ok at htok
        rw [hpc] at htok
        by_cases hcommit : t.monitor = true ∧ s.spurious = false
        · simp only [hcommit, and_self, if_true]
          have hprev : prev = m.cell := htok.2 hcommit.1
          have htmp : tmp = add32 m.cell increment := by rw [htok.1, hprev]
          have hget2 : (m.threads.map Thread.clear)[s.thread]? = some t.clear := by
            rw [List.getElem?_map, hget]; rfl
          have e := sum_calls_set (m.threads.map Thread.clear) s.thread t.clear
            { calls := t.calls - 1, pc := Pc.at_barrier, monitor := false } hget2
          rw [sum_calls_clear] at e
          refine ⟨?_, ?_, ?_⟩
          · rw [htmp]; exact wrap32_isInt32 _
          · rw [htmp]
            refine congruent_after_commit m.cell increment m.remaining _ total t.calls hz ?_
              hsum
            unfold Machine.remaining
            exact e
          · refine ok_of_mem_set increment tmp _ _ _ ?_ (by simp [Thread.ok])
            intro u hu
            obtain ⟨v, hv, rfl⟩ := List.mem_map.mp hu
            exact ok_clear increment m.cell tmp v (hok v hv)
        · simp only [hcommit, if_false]
          refine ⟨hrange, ?_, ok_of_mem_set increment m.cell _ _ _ hok (by simp [Thread.ok])⟩
          rw [remaining_set m s.thread t { t with pc := Pc.at_ldrex, monitor := false }
            m.cell hget rfl]
          exact hsum

theorem run_inv (increment : Int) (total : Nat) (sched : List Sched) :
    ∀ (m : Machine), m.inv increment total → (m.run increment sched).inv increment total := by
  induction sched with
  | nil => intro m h; exact h
  | cons s ss ih =>
    intro m h
    exact ih _ (step_inv increment total m s h)

theorem init_inv (increment : Int) (n calls : Nat) :
    (Machine.init n calls).inv increment (n * calls) := by
  refine ⟨(by decide : IsInt32 0), ?_, ?_⟩
  · have : (Machine.init n calls).remaining = n * calls := by
      simp [Machine.remaining, Machine.init]
    rw [this]
    simp [Machine.init]
  · intro t ht
    rw [List.eq_of_mem_replicate ht]
    simp [Thread.ok]

theorem remaining_of_finished (m : Machine) (h : m.finished = true) : m.remaining = 0 := by
  unfold Machine.finished at h
  unfold Machine.remaining
  rw [List.all_eq_true] at h
  apply List.sum_eq_zero
  intro c hc
  obtain ⟨t, ht, rfl⟩ := List.mem_map.mp hc
  simpa using h t ht

/-- Whatever the interleaving, once every thread is done the cell holds `increment` times
the number of calls, reduced to 32 bits. -/
theorem run_final (increment : Int) (n calls : Nat) (sched : List Sched)
    (h : (Machine.run increment (Machine.init n calls) sched).finished = true) :
    (Machine.run increment (Machine.init n calls) sched).cell =
      wrap32 (increment * ((n * calls : Nat) : Int)) := by
  obtain ⟨hrange, hsum, _⟩ := run_inv increment (n * calls) sched _ (init_inv increment n calls)
  rw [remaining_of_finished _ h] at hsum
  apply eq_wrap32_of_congruent _ _ hrange
  simpa using hsum

theorem run_append (increment : Int) (m : Machine) (xs ys : List Sched) :
    m.run increment (xs ++ ys) = (m.run increment xs).run increment ys := by
  unfold Machine.run
  exact List.foldl_append _ _ _ _

/-- One call run alone in the interleaved model leaves the cell that the sequential
`android_atomic_add` leaves on an undisturbed pass. -/
theorem run_one_call_agrees (b : Build) (increment cell : Int) (c : Nat) :
    (android_atomic_add b increment cell [Pass.quiet]).map (fun r => r.cell) =
      some (Machine.run increment ⟨cell, [⟨c + 1, Pc.at_barrier, false⟩]⟩
        (List.replicate 4 ⟨0, false⟩)).cell := by
  simp [android_atomic_add, op_loop, op_pass, prependTrace, Pass.quiet, Pass.observe,
    Machine.run, Machine.step, Thread.clear, List.replicate]

/-- The first of two threads runs all its calls alone while the second has not begun. -/
theorem run_first_alone (increment : Int) (a : Nat) (c : Nat) :
    ∀ (m : Machine),
      m.threads = [⟨c, Pc.at_barrier, false⟩, ⟨a, Pc.at_barrier, false⟩] →
      (m.run increment (List.replicate (4 * c) ⟨0, false⟩)).threads =
        [⟨0, Pc.at_barrier, false⟩, ⟨a, Pc.at_barrier, false⟩] := by
  induction c with
  | zero => intro m h; simpa [Machine.run] using h
  | succ n ih =>
    intro m h
    obtain ⟨cell, threads⟩ := m
    simp only at h
    subst h
    have e : 4 * (n + 1) = (4 * n + 3) + 1 := by omega
    rw [e, List.replicate_succ, List.replicate_succ, List.replicate_succ, List.replicate_succ]
    simp only [Machine.run, List.foldl_cons]
    exact ih _ (by simp [Machine.step, Thread.clear])

/-- The second of two threads runs all its calls alone after the first has finished. -/
theorem run_second_alone (increment : Int) (c : Nat) :
    ∀ (m : Machine),
      m.threads = [⟨0, Pc.at_barrier, false⟩, ⟨c, Pc.at_barrier, false⟩] →
      (m.run increment (List.replicate (4 * c) ⟨1, false⟩)).threads =
        [⟨0, Pc.at_barrier, false⟩, ⟨0, Pc.at_barrier, false⟩] := by
  induction c with
  | zero => intro m h; simpa [Machine.run] using h
  | succ n ih =>
    intro m h
    obtain ⟨cell, threads⟩ := m
    simp only at h
    subst h
    have e : 4 * (n + 1) = (4 * n + 3) + 1 := by omega
    rw [e, List.replicate_succ, List.replicate_succ, List.replicate_succ, List.replicate_succ]
    simp only [Machine.run, List.foldl_cons]
    exact ih _ (by simp [Machine.step, Thread.clear])

/-- Two threads that run one after the other complete all their calls. -/
theorem run_in_turn_finished (increment : Int) (c : Nat) :
    (Machine.run increment (Machine.init 2 c)
      (List.replicate (4 * c) ⟨0, false⟩ ++ List.replicate (4 * c) ⟨1, false⟩)).finished
      = true := by
  rw [run_append]
  unfold Machine.finished
  rw [run_second_alone increment c _ (run_first_alone increment c c _ rfl)]
  rfl

/-- C8 as it holds of the code: for every number of threads, every number of calls of
`android_atomic_add(1, &cell)` per thread and every interleaving of their instructions
(spurious store failures included) that runs all the calls to completion from a cell
holding 0, the final cell is `N*M` reduced modulo `2^32` into the signed 32-bit range, so
no increment is lost; it is `N*M` itself whenever `N*M` does not exceed `INT32_MAX`. -/
theorem android_atomic_add_no_lost_update (n calls : Nat) (sched : List Sched)
    (h : (Machine.run 1 (Machine.init n calls) sched).finished = true) :
    (Machine.run 1 (Machine.init n calls) sched).cell = wrap32 ((n : Int) * (calls : Int)) ∧
    ((n : Int) * (calls : Int) ≤ INT32_MAX →
      (Machine.run 1 (Machine.init n calls) sched).cell = (n : Int) * (calls : Int)) := by
  have hfinal := run_final 1 n calls sched h
  have hcast : (1 : Int) * ((n * calls : Nat) : Int) = (n : Int) * (calls : Int) := by
    push_cast
    ring
  rw [hcast] at hfinal
  refine ⟨hfinal, ?_⟩
  intro hle
  rw [hfinal]
  apply wrap32_of_isInt32
  have h0 : (0 : Int) ≤ (n : Int) * (calls : Int) :=
    Int.mul_nonneg (Int.ofNat_nonneg n) (Int.ofNat_nonneg calls)
  unfold IsInt32 INT32_MIN
  constructor
  · omega
  · exact hle

/-- Two threads, one call each, racing: both load 0, the second commits first, the first
loses its exclusive store, retries, and the cell ends at 2. -/
theorem android_atomic_add_no_lost_update_witness :
    (Machine.run 1 (Machine.init 2 1)
      [⟨0, false⟩, ⟨1, false⟩, ⟨0, false⟩, ⟨1, false⟩, ⟨1, false⟩, ⟨1, false⟩, ⟨0, false⟩,
       ⟨0, false⟩, ⟨0, false⟩, ⟨0, false⟩, ⟨0, false⟩]).cell = 2 :=
  (android_atomic_add_no_lost_update 2 1
      [⟨0, false⟩, ⟨1, false⟩, ⟨0, false⟩, ⟨1, false⟩, ⟨1, false⟩, ⟨1, false⟩, ⟨0, false⟩,
       ⟨0, false⟩, ⟨0, false⟩, ⟨0, false⟩, ⟨0, false⟩] (by decide)).2 (by decide)

/-- C8 as stated fails once `N*M` exceeds `INT32_MAX`: two threads issuing `2^30` calls each,
one thread after the other, complete all `2^31` increments and the cell holds `INT32_MIN`,
not `2^31`. -/
theorem android_atomic_add_count_wraps :
    (Machine.run 1 (Machine.init 2 1073741824)
      (List.replicate (4 * 1073741824) ⟨0, false⟩ ++
        List.replicate (4 * 1073741824) ⟨1, false⟩)).finished = true ∧
    (Machine.run 1 (Machine.init 2 1073741824)
      (List.replicate (4 * 1073741824) ⟨0, false⟩ ++
        List.replicate (4 * 1073741824) ⟨1, false⟩)).cell = INT32_MIN ∧
    (Machine.run 1 (Machine.init 2 1073741824)
      (List.replicate (4 * 1073741824) ⟨0, false⟩ ++
        List.replicate (4 * 1073741824) ⟨1, false⟩)).cell ≠ (2 : Int) * (1073741824 : Int) := by
  have hfin := run_in_turn_finished 1 1073741824
  have hcell := run_final 1 2 1073741824 _ hfin
  have hval : wrap32 (1 * ((2 * 1073741824 : Nat) : Int)) = INT32_MIN := by
    unfold wrap32 INT32_MIN
    norm_num
  rw [hval] at hcell
  refine ⟨hfin, hcell, ?_⟩
  rw [hcell]
  unfold INT32_MIN
  norm_num

end AtomicArm
